import Mathlib

/-!
Shallow embedding of the SZ-Room notice pipeline (TypeScript sources) and
verification of the frozen claims about it.

The embedded modules are:
* `DataFilter` (src/filter/dataFilter.ts): temporal / include-keyword /
  exclude-keyword filtering over notices;
* `MemoryCache` (src/utils/cache.ts): the bounded in-memory dedup tier;
* `DeduplicationFilter` (src/filter/deduplication.ts): intra-batch dedup by
  normalized key and cross-run dedup against the cache tiers;
* `FeishuBot` (src/notification/feishuBot.ts): the webhook retry loop;
* `CategoryService` (src/services/categoryService.ts): priority-rule
  classification;
* `CrawlerService` (src/services/crawlerService.ts): the push-then-mark phase
  of one run.

JavaScript string and date primitives used by those modules are embedded
explicitly (`jsLower`, `strIncludes`, `jsParseDate`, `urlPathname`).
-/

/-- Lowercases every character of a string. Models
`String.prototype.toLowerCase` as used by the sources; the notices handled by
this program contain ASCII and CJK characters, on which ASCII lowercasing
agrees with JS. -/
def jsLower (s : String) : String :=
  String.mk (s.data.map Char.toLower)

/-- `leadMatch needle hay` is true when `needle` occurs at the very start of
`hay` (character-wise). Helper for `hasSub`. -/
def leadMatch : List Char → List Char → Bool
  | [], _ => true
  | _ :: _, [] => false
  | a :: as, b :: bs => a == b && leadMatch as bs

/-- `hasSub hay needle` is true when `needle` occurs contiguously somewhere in
`hay`. Models `String.prototype.includes`. -/
def hasSub : List Char → List Char → Bool
  | [], needle => needle.isEmpty
  | hay@(_ :: t), needle => leadMatch needle hay || hasSub t needle

/-- Models `hay.includes(needle)` on JS strings. -/
def strIncludes (hay needle : String) : Bool :=
  hasSub hay.data needle.data

/-- One candidate announcement (interface `Notice` in src/types). The optional
`summary`, `content`, `category` fields are `Option`s. -/
structure Notice where
  id : String
  title : String
  url : String
  publishDate : String
  summary : Option String := none
  content : Option String := none
  category : Option String := none
deriving Repr, DecidableEq

/-- The filter-relevant part of `FilterConfig` (src/config/config.ts). -/
structure FilterConfig where
  dayRange : Int
  keywords : List String
  excludeKeywords : List String
deriving Repr, DecidableEq

/-- A classification rule (interface `CategoryRule` in src/types). -/
structure CategoryRule where
  name : String
  keywords : List String
  priority : Int
deriving Repr, DecidableEq

/-- True for a Gregorian leap year. -/
def isLeap (y : Nat) : Bool :=
  (y % 4 == 0 && y % 100 != 0) || y % 400 == 0

/-- Number of days in month `m` (1-based) of year `y`. -/
def daysInMonth (y m : Nat) : Nat :=
  if m == 2 then (if isLeap y then 29 else 28)
  else if m == 4 || m == 6 || m == 9 || m == 11 then 30
  else 31

/-- Days between 1970-01-01 and the start of year `y` (for `y ≥ 1970`). -/
def daysBeforeYear : Nat → Nat
  | 0 => 0
  | y + 1 => if y + 1 ≤ 1970 then 0
             else daysBeforeYear y + (if isLeap y then 366 else 365)

/-- Days between the start of year `y` and the start of its month `m`. -/
def daysBeforeMonth (y : Nat) : Nat → Nat
  | 0 => 0
  | 1 => 0
  | m + 1 => daysBeforeMonth y m + daysInMonth y m

/-- Milliseconds since the Unix epoch of midnight UTC on `y-m-d`. -/
def epochMs (y m d : Nat) : Int :=
  ((daysBeforeYear y + daysBeforeMonth y m + (d - 1)) : Int) * 86400000

/-- Numeric value of a decimal digit character. -/
def digitVal (c : Char) : Nat := c.toNat - 48

/-- Models the JS `new Date(string)` constructor on the `publishDate` strings
handled by this program: a well-formed ISO date `YYYY-MM-DD` (year 1970 or
later) yields its epoch-milliseconds instant (JS parses date-only ISO strings
as midnight UTC); every other string yields `none`, standing for the JS
`Invalid Date` (whose time value is `NaN`). The constructor itself never
throws on a string argument. -/
def jsParseDate (s : String) : Option Int :=
  match s.data with
  | [y1, y2, y3, y4, '-', m1, m2, '-', d1, d2] =>
    if y1.isDigit && y2.isDigit && y3.isDigit && y4.isDigit &&
       m1.isDigit && m2.isDigit && d1.isDigit && d2.isDigit then
      let y := digitVal y1 * 1000 + digitVal y2 * 100 + digitVal y3 * 10 + digitVal y4
      let m := digitVal m1 * 10 + digitVal m2
      let d := digitVal d1 * 10 + digitVal d2
      if 1970 ≤ y && 1 ≤ m && m ≤ 12 && 1 ≤ d && d ≤ daysInMonth y m then
        some (epochMs y m d)
      else none
    else none
  | _ => none

namespace DataFilter

/-- Search text of a notice for keyword filtering: the code lowercases the
template string built from the title, a space, and `summary || ''`. -/
def searchText (n : Notice) : String :=
  jsLower (n.title ++ " " ++ n.summary.getD "")

/-- `DataFilter.filterByDate` (src/filter/dataFilter.ts lines 45-62). With
`dayRange ≤ 0` it returns the input unchanged. Otherwise the cutoff is `now`
minus `dayRange` days (the code subtracts calendar days via `setDate`; the
deployment timezone has no DST, so this is `dayRange * 86400000` ms) and a
notice survives when `new Date(publishDate) >= cutoffDate`. A string the Date
constructor cannot interpret produces `Invalid Date`, whose `NaN` time value
makes the comparison false, so the notice is dropped; the `catch` branch of
the source (which would keep the notice) is unreachable because the Date
constructor does not throw on strings. -/
def filterByDate (cfg : FilterConfig) (nowMs : Int) (notices : List Notice) : List Notice :=
  if cfg.dayRange ≤ 0 then notices
  else
    let cutoff := nowMs - cfg.dayRange * 86400000
    notices.filter (fun n =>
      match jsParseDate n.publishDate with
      | some t => decide (cutoff ≤ t)
      | none => false)

/-- `DataFilter.filterByKeywords` (lines 67-79): with an empty keyword list
all notices pass; otherwise a notice survives when some configured keyword,
lowercased, occurs in the search text. -/
def filterByKeywords (cfg : FilterConfig) (notices : List Notice) : List Notice :=
  if cfg.keywords.isEmpty then notices
  else
    notices.filter (fun n =>
      cfg.keywords.any (fun k => strIncludes (searchText n) (jsLower k)))

/-- `DataFilter.filterByExcludeKeywords` (lines 84-96): with an empty exclude
list all notices pass; otherwise a notice survives when no configured exclude
keyword occurs in the search text. -/
def filterByExcludeKeywords (cfg : FilterConfig) (notices : List Notice) : List Notice :=
  if cfg.excludeKeywords.isEmpty then notices
  else
    notices.filter (fun n =>
      !cfg.excludeKeywords.any (fun k => strIncludes (searchText n) (jsLower k)))

end DataFilter

namespace MemoryCache

/-- State of the in-memory dedup tier (`MemoryCache` in src/utils/cache.ts):
the keyed entries in insertion order, as a JS `Map` keeps them, together with
the configured capacity. Each entry pairs the cached id with the
`Date.now()` millisecond at which it was stored. -/
structure Cache where
  maxSize : Nat
  entries : List (String × Nat)
deriving Repr, DecidableEq

/-- True when an entry with key `k` is present. Models `Map.has`. -/
def hasKey (es : List (String × Nat)) (k : String) : Bool :=
  es.any (fun e => e.1 == k)

/-- `MemoryCache.has` (cache.ts line 23). -/
def has (c : Cache) (k : String) : Bool :=
  hasKey c.entries k

/-- Models `Map.set`: an existing key keeps its position and gets the new
timestamp; a new key is appended at the end. -/
def mapSet (es : List (String × Nat)) (k : String) (now : Nat) : List (String × Nat) :=
  if hasKey es k then
    es.map (fun e => if e.1 == k then (k, now) else e)
  else es ++ [(k, now)]

/-- The scan of `MemoryCache.removeOldest` (cache.ts lines 90-98): starting
from `oldestKey = ''` and `oldestTimestamp = Date.now()`, each entry takes
over the accumulator only when its timestamp is strictly smaller. -/
def scanOldest (now : Nat) (es : List (String × Nat)) : String × Nat :=
  es.foldl (fun acc e => if e.2 < acc.2 then e else acc) ("", now)

/-- `MemoryCache.removeOldest` (cache.ts lines 87-104): on a non-empty map,
delete the entry found by the scan, but only when the found key is truthy,
i.e. not the empty-string sentinel — when every stored timestamp is at least
the current `Date.now()` value the scan never fires and nothing is deleted. -/
def removeOldest (now : Nat) (es : List (String × Nat)) : List (String × Nat) :=
  if es.isEmpty then es
  else
    let best := scanOldest now es
    if best.1 ≠ "" then es.filter (fun e => !(e.1 == best.1)) else es

/-- `MemoryCache.add` (cache.ts lines 30-42): when the map already holds at
least `maxSize` entries, first run `removeOldest`, then store the id with the
current `Date.now()` value. Both `Date.now()` reads of one call are modelled
by the same `now`. -/
def add (c : Cache) (k : String) (now : Nat) : Cache :=
  let es := if c.maxSize ≤ c.entries.length then removeOldest now c.entries else c.entries
  { c with entries := mapSet es k now }

/-- `MemoryCache.addBatch` (cache.ts lines 47-50): `add` for each id in order.
The loop body runs within one millisecond, so all adds share one `now`. -/
def addBatch (c : Cache) (ks : List String) (now : Nat) : Cache :=
  ks.foldl (fun acc k => add acc k now) c

/-- Runs a sequence of `add` calls, each with its own clock reading. -/
def addSeq (c : Cache) (adds : List (String × Nat)) : Cache :=
  adds.foldl (fun acc p => add acc p.1 p.2) c

end MemoryCache

namespace DeduplicationFilter

/-- JS whitespace characters relevant to the `\s` class on these inputs. -/
def isWs (c : Char) : Bool :=
  c == ' ' || c == '\t' || c == '\n' || c == '\r' || c == '\x0b' || c == '\x0c'

/-- `DeduplicationFilter.normalizeTitle` (deduplication.ts lines 300-307):
lowercase, delete all whitespace, delete the bracket characters
`【】[]()（）`, delete the particles `的` and `了`; the final `trim` is a
no-op because whitespace is already gone. -/
def normalizeTitle (title : String) : String :=
  String.mk ((title.data.map Char.toLower).filter (fun c =>
    !(isWs c ||
      c == '【' || c == '】' || c == '[' || c == ']' ||
      c == '(' || c == ')' || c == '（' || c == '）' ||
      c == '的' || c == '了')))

/-- Drops a leading `scheme://` part: scans the leading run of scheme
characters and requires it to be followed by `://`. Returns what follows, or
`none` when the string has no such head (the JS `URL` constructor throws on
such strings). Helper for `urlPathname`. -/
def afterScheme : List Char → Option (List Char)
  | ':' :: '/' :: '/' :: rest => some rest
  | c :: rest => if c.isAlpha || c.isDigit || c == '+' || c == '-' || c == '.' then
                   afterScheme rest
                 else none
  | [] => none

/-- Models `new URL(url).pathname` for the absolute `http(s)` URLs this
program handles: everything from the first `/` after the authority up to the
first `?` or `#`; `/` when the authority is not followed by a path. `none`
models the constructor throwing (no `scheme://` head). -/
def urlPathname (url : String) : Option String :=
  match afterScheme url.data with
  | none => none
  | some rest =>
    let afterHost := rest.dropWhile (fun c => !(c == '/' || c == '?' || c == '#'))
    match afterHost with
    | '/' :: _ => some (String.mk (afterHost.takeWhile (fun c => !(c == '?' || c == '#'))))
    | _ => some "/"

/-- `DeduplicationFilter.normalizeUrl` (deduplication.ts lines 312-321): the
lowercased URL path when the URL parses, otherwise the lowercased raw URL. -/
def normalizeUrl (url : String) : String :=
  match urlPathname url with
  | some p => jsLower p
  | none => jsLower url

/-- `DeduplicationFilter.generateDedupeKey` (deduplication.ts lines 289-295):
normalized title and normalized URL joined by `|`. -/
def generateDedupeKey (n : Notice) : String :=
  normalizeTitle n.title ++ "|" ++ normalizeUrl n.url

/-- The loop of `removeDuplicatesWithinBatch` (deduplication.ts lines
230-240) with its `seen` set of keys made explicit. -/
def dedupGo (seen : List String) : List Notice → List Notice
  | [] => []
  | n :: t =>
    let k := generateDedupeKey n
    if seen.contains k then dedupGo seen t
    else n :: dedupGo (k :: seen) t

/-- `DeduplicationFilter.removeDuplicatesWithinBatch` (deduplication.ts lines
226-248). -/
def removeDuplicatesWithinBatch (notices : List Notice) : List Notice :=
  dedupGo [] notices

/-- Modelled from the spec: keep, per Dedup Key, exactly the first record of
the input and preserve input order. Reference definition for claim C8. -/
def keepFirstByKey : List Notice → List Notice
  | [] => []
  | n :: t =>
    n :: keepFirstByKey (t.filter (fun m => !(generateDedupeKey m == generateDedupeKey n)))
termination_by l => l.length
decreasing_by
  simp only [List.length_cons]
  exact Nat.lt_succ_of_le (List.length_filter_le _ _)

end DeduplicationFilter

namespace DeduplicationFilter

/-- Combined state of the two dedup tiers: the durable Redis tier, modelled
within its TTL validity window as the set of ids written by `setex`
(src/services/redisService.ts stores `'1'` under `prefix + 'sent:' + id`),
and the in-memory fallback tier. -/
structure DedupState where
  redis : List String
  mem : MemoryCache.Cache
deriving Repr, DecidableEq

/-- `RedisService.hasSent` within the TTL window: key existence. -/
def redisHasSent (st : DedupState) (id : String) : Bool :=
  st.redis.contains id

/-- `RedisService.markBatchAsSent` (redisService.ts lines 108-126): a
pipelined `setex` per id. -/
def redisMarkBatch (st : DedupState) (ids : List String) : DedupState :=
  { st with redis := st.redis ++ ids }

/-- `DeduplicationFilter.isNewNotice` (deduplication.ts lines 116-128):
when the Redis tier is the one serving the call, a notice is new iff
`hasSent` is false for its id; otherwise the memory tier is consulted via
`cache.has`. `redisUp` abstracts `isRedisAvailable && redisService` together
with the call not throwing. -/
def isNewNotice (st : DedupState) (redisUp : Bool) (n : Notice) : Bool :=
  if redisUp then !redisHasSent st n.id
  else !MemoryCache.has st.mem n.id

/-- `DeduplicationFilter.markAsSent` (deduplication.ts lines 133-145): the
Redis tier when it serves the call, otherwise `cache.add`. -/
def markAsSent (st : DedupState) (redisUp : Bool) (id : String) (now : Nat) : DedupState :=
  if redisUp then redisMarkBatch st [id]
  else { st with mem := MemoryCache.add st.mem id now }

/-- `DeduplicationFilter.markBatchAsSent` (deduplication.ts lines 150-162):
`redisService.markBatchAsSent` when Redis serves the call, otherwise
`cache.addBatch`. -/
def markBatchAsSent (st : DedupState) (redisUp : Bool) (ids : List String) (now : Nat) : DedupState :=
  if redisUp then redisMarkBatch st ids
  else { st with mem := MemoryCache.addBatch st.mem ids now }

/-- `DeduplicationFilter.filterNewNotices` (deduplication.ts lines 253-270):
keeps the notices whose raw `id` is not in the memory cache. -/
def filterNewNotices (mem : MemoryCache.Cache) (notices : List Notice) : List Notice :=
  notices.filter (fun n => !MemoryCache.has mem n.id)

/-- `DeduplicationFilter.filterNewNoticesWithRedis` (deduplication.ts lines
73-91): batch-checks the raw ids against Redis and keeps the notices whose
`id` the check reports as not sent. -/
def filterNewNoticesWithRedis (st : DedupState) (notices : List Notice) : List Notice :=
  notices.filter (fun n => !redisHasSent st n.id)

end DeduplicationFilter

namespace FeishuBot

/-- `FeishuBot.MAX_RETRIES` (feishuBot.ts line 13). -/
def MAX_RETRIES : Nat := 3

/-- `FeishuBot.RETRY_DELAY` in milliseconds (feishuBot.ts line 14). -/
def RETRY_DELAY : Nat := 1000

/-- The retry loop of `FeishuBot.pushViaWebhook` (feishuBot.ts lines 91-127).
`outcome a` is true when the delivery attempt numbered `a` (1-based)
succeeds, abstracting the HTTP call. The result carries the number of the
last attempt made, the list of backoff delays slept between attempts (in
order, `RETRY_DELAY * attempt` after a failed attempt that is not the last),
and whether the push succeeded. `fuel` bounds the loop; the caller passes
`MAX_RETRIES`, matching `for (attempt = 1; attempt <= MAX_RETRIES; attempt++)`. -/
def webhookGo (outcome : Nat → Bool) : Nat → Nat → Nat × List Nat × Bool
  | attempt, 0 => (attempt - 1, [], false)
  | attempt, fuel + 1 =>
    if outcome attempt then (attempt, [], true)
    else if attempt < MAX_RETRIES then
      let r := webhookGo outcome (attempt + 1) fuel
      (r.1, RETRY_DELAY * attempt :: r.2.1, r.2.2)
    else (attempt, [], false)

/-- `FeishuBot.pushViaWebhook`, observed through attempt count, backoff
delays and final success. On total failure the source throws a
`FeishuError`, reported by the caller as a failed `PushResult`. -/
def webhookRun (outcome : Nat → Bool) : Nat × List Nat × Bool :=
  webhookGo outcome 1 MAX_RETRIES

end FeishuBot

namespace CategoryService

/-- Ascending-priority order on classification rules. -/
def rulePriorityLE (a b : CategoryRule) : Prop :=
  a.priority ≤ b.priority

instance : DecidableRel rulePriorityLE :=
  fun a b => Int.decLe a.priority b.priority

instance : IsTotal CategoryRule rulePriorityLE :=
  ⟨fun a b => Int.le_total a.priority b.priority⟩

instance : IsTrans CategoryRule rulePriorityLE :=
  ⟨fun _ _ _ h1 h2 => le_trans h1 h2⟩

/-- Rule order used by `categorizeNotices` (categoryService.ts line 16):
`rules.sort((a, b) => a.priority - b.priority)`, a stable ascending sort by
priority, modelled by insertion sort. -/
def sortRules (rules : List CategoryRule) : List CategoryRule :=
  List.insertionSort rulePriorityLE rules

/-- The lowercased `title + ' ' + summary` text a notice is matched against
(categoryService.ts lines 43-45). -/
def noticeContent (n : Notice) : String :=
  jsLower n.title ++ " " ++ jsLower (n.summary.getD "")

/-- One rule's keyword test (categoryService.ts lines 54-56). -/
def ruleMatches (n : Notice) (r : CategoryRule) : Bool :=
  r.keywords.any (fun k => strIncludes (noticeContent n) (jsLower k))

/-- `CategoryService.getNoticeCategory` (categoryService.ts lines 42-66):
first rule with an empty keyword list or a keyword match wins; `其他` when
no rule fires. -/
def getNoticeCategory (n : Notice) : List CategoryRule → String
  | [] => "其他"
  | r :: rs =>
    if r.keywords.isEmpty then r.name
    else if ruleMatches n r then r.name
    else getNoticeCategory n rs

/-- Appends a notice to its category's bucket, creating the bucket at the end
on first use. Models `categorized[category].push(notice)` over a JS object
whose keys enumerate in insertion order. -/
def addToBucket (acc : List (String × List (Notice × Nat))) (c : String)
    (x : Notice × Nat) : List (String × List (Notice × Nat)) :=
  match acc with
  | [] => [(c, [x])]
  | (k, xs) :: t => if k == c then (k, xs ++ [x]) :: t else (k, xs) :: addToBucket t c x

/-- `CategoryService.categorizeNotices` (categoryService.ts lines 12-37):
sort the rules, then for each notice in order set its `category` field,
record its original index, and append it to the bucket of its category. The
original-index marker is modelled as the second component of each bucket
element. -/
def categorizeNotices (rules : List CategoryRule) (notices : List Notice) :
    List (String × List (Notice × Nat)) :=
  let rs := sortRules rules
  notices.enum.foldl (fun acc p =>
    let c := getNoticeCategory p.2 rs
    addToBucket acc c ({ p.2 with category := some c }, p.1)) []

end CategoryService

namespace CrawlerService

/-- Result of one push (interface `PushResult` in src/types), timestamp
omitted. -/
structure PushResultL where
  success : Bool
  message : String
deriving Repr, DecidableEq

/-- Steps 5 of `CrawlerService.run` (crawlerService.ts lines 61-70) together
with `markNoticesAsSent` (lines 242-250): when the dedup stage produced at
least one new notice, push them (the push function never throws — every
failure is caught and returned as a `success = false` result) and then,
unconditionally on the push outcome, mark every new notice's id as sent
through `DeduplicationFilter.markBatchAsSent`. -/
def runPushPhase (push : List Notice → PushResultL)
    (st : DeduplicationFilter.DedupState) (redisUp : Bool) (now : Nat)
    (newNotices : List Notice) :
    Option PushResultL × DeduplicationFilter.DedupState :=
  if 0 < newNotices.length then
    let pr := push newNotices
    (some pr, DeduplicationFilter.markBatchAsSent st redisUp (newNotices.map (·.id)) now)
  else (none, st)

end CrawlerService

/-! Sample records used by concrete counterexamples and witnesses. -/

/-- A sample notice. -/
def nA : Notice := ⟨"idA", "Sample notice title", "https://example.com/path/one", "2024-01-10", none, none, none⟩

/-- A notice with the same title and URL as `nA` but a different raw id. -/
def nB : Notice := ⟨"idB", "Sample notice title", "https://example.com/path/one", "2024-01-12", none, none, none⟩

/-! Helper lemmas about the memory cache. -/

namespace MemoryCache

/-- A fold that no element can improve returns its accumulator unchanged. -/
theorem foldl_min_stays (l : List (String × Nat)) (acc : String × Nat)
    (h : ∀ e ∈ l, ¬ e.2 < acc.2) :
    l.foldl (fun acc e => if e.2 < acc.2 then e else acc) acc = acc := by
  induction l with
  | nil => rfl
  | cons e t ih =>
    simp only [List.foldl_cons]
    rw [if_neg (h e (List.mem_cons_self e t))]
    exact ih (fun f hf => h f (List.mem_cons_of_mem e hf))

/-- On a list whose head is strictly older than the clock and than every
other entry, the scan of `removeOldest` returns the head. -/
theorem scanOldest_head (now : Nat) (e : String × Nat) (t : List (String × Nat))
    (h1 : e.2 < now) (h2 : ∀ f ∈ t, e.2 < f.2) :
    scanOldest now (e :: t) = e := by
  unfold scanOldest
  simp only [List.foldl_cons]
  rw [if_pos h1]
  exact foldl_min_stays t e (fun f hf => Nat.not_lt.mpr (Nat.le_of_lt (h2 f hf)))

/-- When the head is strictly oldest, has a truthy key, and its key occurs
nowhere else, `removeOldest` deletes exactly the head. -/
theorem removeOldest_head (now : Nat) (e : String × Nat) (t : List (String × Nat))
    (h1 : e.2 < now) (h2 : ∀ f ∈ t, e.2 < f.2) (h3 : e.1 ≠ "")
    (h4 : ∀ f ∈ t, f.1 ≠ e.1) :
    removeOldest now (e :: t) = t := by
  have hscan := scanOldest_head now e t h1 h2
  have hunf : removeOldest now (e :: t) =
      if (scanOldest now (e :: t)).1 ≠ "" then
        (e :: t).filter (fun f => !(f.1 == (scanOldest now (e :: t)).1))
      else e :: t := rfl
  rw [hunf, hscan, if_pos h3, List.filter_cons]
  simp only [beq_self_eq_true, Bool.not_true, Bool.false_eq_true, if_false]
  exact List.filter_eq_self.mpr (fun f hf => by simp [h4 f hf])

/-- Filling a cache that has room for the whole batch of fresh keys appends
the batch in order, with no eviction. -/
theorem addSeq_fill (adds : List (String × Nat)) (c : Cache)
    (hroom : c.entries.length + adds.length ≤ c.maxSize)
    (hfresh : ∀ p ∈ adds, hasKey c.entries p.1 = false)
    (hnodup : (adds.map Prod.fst).Nodup) :
    (addSeq c adds).entries = c.entries ++ adds := by
  induction adds generalizing c with
  | nil => simp [addSeq]
  | cons p t ih =>
    have hlt : c.entries.length < c.maxSize := by
      simp only [List.length_cons] at hroom
      omega
    have hstep : add c p.1 p.2 = { c with entries := c.entries ++ [p] } := by
      simp only [add, mapSet, if_neg (Nat.not_le.mpr hlt),
        hfresh p (List.mem_cons_self p t), Bool.false_eq_true, if_false]
    have hrest : (addSeq { c with entries := c.entries ++ [p] } t).entries =
        (c.entries ++ [p]) ++ t := by
      apply ih
      · simp only [List.length_append, List.length_singleton]
        simp only [List.length_cons] at hroom
        omega
      · intro q hq
        simp only [hasKey, List.any_append, Bool.or_eq_false_iff]
        refine ⟨hfresh q (List.mem_cons_of_mem p hq), ?_⟩
        simp only [List.any_cons, List.any_nil, Bool.or_false]
        have hpq : p.1 ≠ q.1 := by
          intro hEq
          have hmem : p.1 ∈ List.map Prod.fst t := hEq ▸ List.mem_map_of_mem Prod.fst hq
          simp only [List.map_cons, List.nodup_cons] at hnodup
          exact hnodup.1 hmem
        simp [hpq]
      · simp only [List.map_cons, List.nodup_cons] at hnodup
        exact hnodup.2
    show (addSeq (add c p.1 p.2) t).entries = _
    rw [hstep, hrest, List.append_assoc]
    rfl

end MemoryCache

/-- C5 counterexample. The claim: with capacity `N`, any sequence of `add`
calls with `N + 1` distinct keys leaves exactly `N` keys present and evicts
the minimum-timestamp entry. Refuted at capacity 2 with the three distinct
keys `a`, `b`, `c` added within one millisecond (as `addBatch` does): the
eviction scan starts from the current `Date.now()` value and fires only on
strictly smaller timestamps, so nothing is evicted and all three keys
remain. -/
theorem C5_tied_timestamps_exceed_capacity :
    (MemoryCache.addSeq ⟨2, []⟩ [("a", 100), ("b", 100), ("c", 100)]).entries =
      [("a", 100), ("b", 100), ("c", 100)] := by
  rfl

/-- C5 (amended): with capacity `N > 0` and `N + 1` adds of pairwise-distinct
non-empty keys whose clock readings are strictly increasing, the cache ends
with exactly `N` keys and the evicted entry is the first one added — the one
with the minimum stored timestamp. -/
theorem C5_capacity_eviction (N : Nat) (adds : List (String × Nat))
    (hN : 0 < N) (hlen : adds.length = N + 1)
    (hkeys : (adds.map Prod.fst).Nodup)
    (hne : ∀ k ∈ adds.map Prod.fst, k ≠ "")
    (hts : (adds.map Prod.snd).Pairwise (· < ·)) :
    (MemoryCache.addSeq ⟨N, []⟩ adds).entries = adds.drop 1 ∧
    (MemoryCache.addSeq ⟨N, []⟩ adds).entries.length = N := by
  match adds, hlen with
  | e :: rest, hlen =>
  have hrest : rest.length = N := by simpa using hlen
  set t1 := rest.take (N - 1) with ht1
  have hzlen : (rest.drop (N - 1)).length = 1 := by
    rw [List.length_drop, hrest]
    omega
  obtain ⟨z, hz⟩ := List.length_eq_one.mp hzlen
  have hsplit : rest = t1 ++ [z] := by
    rw [ht1, ← hz, List.take_append_drop]
  have ht1len : t1.length = N - 1 := by
    rw [ht1, List.length_take, hrest]
    omega
  have hhead : ∀ b ∈ rest.map Prod.snd, e.2 < b := by
    have hp := hts
    simp only [List.map_cons, List.pairwise_cons] at hp
    exact hp.1
  have hkey_head : e.1 ∉ rest.map Prod.fst := by
    have hp := hkeys
    simp only [List.map_cons, List.nodup_cons] at hp
    exact hp.1
  have hrest_nodup : (rest.map Prod.fst).Nodup := by
    have hp := hkeys
    simp only [List.map_cons, List.nodup_cons] at hp
    exact hp.2
  have hmem_t1 : ∀ f ∈ t1, f ∈ rest := fun f hf => List.take_subset _ _ hf
  have hzmem : z ∈ rest := by
    have hmem : z ∈ rest.drop (N - 1) := by rw [hz]; exact List.mem_singleton.mpr rfl
    exact List.drop_subset _ _ hmem
  have hfill : (MemoryCache.addSeq ⟨N, []⟩ (e :: t1)).entries = e :: t1 := by
    have h := MemoryCache.addSeq_fill (e :: t1) ⟨N, []⟩
      (by simp only [List.length_nil, List.length_cons, ht1len]; omega)
      (by intro p _; rfl)
      (by
        have hsub : (e :: t1).Sublist (e :: rest) :=
          List.Sublist.cons₂ e (ht1 ▸ List.take_sublist (N - 1) rest)
        exact hkeys.sublist (hsub.map Prod.fst))
    simpa using h
  have hdecomp : MemoryCache.addSeq ⟨N, []⟩ (e :: rest) =
      MemoryCache.add (MemoryCache.addSeq ⟨N, []⟩ (e :: t1)) z.1 z.2 := by
    show List.foldl _ _ (e :: rest) = _
    rw [show e :: rest = (e :: t1) ++ [z] by rw [hsplit, List.cons_append]]
    rw [List.foldl_append]
    rfl
  have hremove : MemoryCache.removeOldest z.2 (e :: t1) = t1 := by
    apply MemoryCache.removeOldest_head
    · exact hhead z.2 (List.mem_map_of_mem Prod.snd hzmem)
    · exact fun f hf => hhead f.2 (List.mem_map_of_mem Prod.snd (hmem_t1 f hf))
    · exact hne e.1 (by simp)
    · intro f hf hEq
      exact hkey_head (hEq ▸ List.mem_map_of_mem Prod.fst (hmem_t1 f hf))
  have hz_fresh : MemoryCache.hasKey t1 z.1 = false := by
    have hnd : ((t1 ++ [z]).map Prod.fst).Nodup := hsplit ▸ hrest_nodup
    simp only [List.map_append, List.map_singleton, List.nodup_append] at hnd
    have hz_not : z.1 ∉ t1.map Prod.fst := by
      intro hmem
      exact hnd.2.2 hmem (List.mem_singleton.mpr rfl)
    unfold MemoryCache.hasKey
    rw [List.any_eq_false]
    intro f hf
    have hfz : f.1 ≠ z.1 := fun hEq => hz_not (hEq ▸ List.mem_map_of_mem Prod.fst hf)
    simp [hfz]
  have hmaxconst : ∀ (c : MemoryCache.Cache) (l : List (String × Nat)),
      (MemoryCache.addSeq c l).maxSize = c.maxSize := by
    intro c l
    induction l generalizing c with
    | nil => rfl
    | cons p t ih => exact ih _
  have hc : MemoryCache.addSeq ⟨N, []⟩ (e :: t1) = ⟨N, e :: t1⟩ := by
    have hEta : MemoryCache.addSeq ⟨N, []⟩ (e :: t1) =
        MemoryCache.Cache.mk (MemoryCache.addSeq ⟨N, []⟩ (e :: t1)).maxSize
          (MemoryCache.addSeq ⟨N, []⟩ (e :: t1)).entries := rfl
    rw [hEta, hfill, hmaxconst]
  have hlen2 : (e :: t1).length = N := by
    simp only [List.length_cons, ht1len]
    omega
  have hfinal : (MemoryCache.addSeq ⟨N, []⟩ (e :: rest)).entries = t1 ++ [z] := by
    rw [hdecomp, hc]
    show (MemoryCache.add ⟨N, e :: t1⟩ z.1 z.2).entries = t1 ++ [z]
    unfold MemoryCache.add
    simp only [hlen2, le_refl, if_true, hremove, MemoryCache.mapSet, hz_fresh,
      Bool.false_eq_true, if_false]
  constructor
  · rw [hfinal, List.drop_one, List.tail_cons, hsplit]
  · rw [hfinal]
    simp only [List.length_append, List.length_singleton, ht1len]
    omega

/-- C5 witness: capacity 2, three adds with strictly increasing clocks; the
first-added (minimum-timestamp) key `a` is evicted and exactly 2 keys
remain. -/
theorem C5_capacity_eviction_witness :
    (MemoryCache.addSeq ⟨2, []⟩ [("a", 1), ("b", 2), ("c", 3)]).entries =
      [("b", 2), ("c", 3)] ∧
    (MemoryCache.addSeq ⟨2, []⟩ [("a", 1), ("b", 2), ("c", 3)]).entries.length = 2 := by
  have h := C5_capacity_eviction 2 [("a", 1), ("b", 2), ("c", 3)]
    (by decide) (by decide) (by decide) (by decide) (by decide)
  simpa using h

namespace MemoryCache

/-- `KeyAt es k now`: key `k` is present and every entry holding it carries
timestamp `now`. This is the state of a key right after it was stored at
clock value `now`, and it survives further same-millisecond `add`s. -/
def KeyAt (es : List (String × Nat)) (k : String) (now : Nat) : Prop :=
  (∃ e ∈ es, e.1 = k) ∧ ∀ e ∈ es, e.1 = k → e.2 = now

/-- `mapSet` establishes `KeyAt` for the key it stores. -/
theorem keyAt_mapSet (es : List (String × Nat)) (k : String) (now : Nat) :
    KeyAt (mapSet es k now) k now := by
  unfold mapSet
  by_cases h : hasKey es k = true
  · rw [if_pos h]
    unfold hasKey at h
    obtain ⟨e0, he0, hk0⟩ := List.any_eq_true.mp h
    constructor
    · exact ⟨(k, now), List.mem_map.mpr ⟨e0, he0, if_pos hk0⟩, rfl⟩
    · intro e' he' hk'
      obtain ⟨e, he, hfe⟩ := List.mem_map.mp he'
      by_cases hc : (e.1 == k) = true
      · rw [if_pos hc] at hfe
        rw [← hfe]
      · rw [if_neg hc] at hfe
        rw [← hfe] at hk'
        exact absurd (by simp [hk']) hc
  · rw [if_neg h]
    constructor
    · exact ⟨(k, now), List.mem_append_right es (List.mem_singleton.mpr rfl), rfl⟩
    · intro e he hk
      rcases List.mem_append.mp he with hes | hone
      · unfold hasKey at h
        rw [List.any_eq_true] at h
        exact absurd ⟨e, hes, by simp [hk]⟩ h
      · rw [List.mem_singleton.mp hone]

/-- The eviction scan either keeps its initial accumulator or returns an
element of the list with a strictly smaller timestamp. -/
theorem scan_result (l : List (String × Nat)) (acc : String × Nat) :
    l.foldl (fun acc e => if e.2 < acc.2 then e else acc) acc = acc ∨
    (l.foldl (fun acc e => if e.2 < acc.2 then e else acc) acc ∈ l ∧
      (l.foldl (fun acc e => if e.2 < acc.2 then e else acc) acc).2 < acc.2) := by
  induction l generalizing acc with
  | nil => exact Or.inl rfl
  | cons e t ih =>
    simp only [List.foldl_cons]
    by_cases hc : e.2 < acc.2
    · rw [if_pos hc]
      rcases ih e with h | ⟨hmem, hlt⟩
      · exact Or.inr ⟨by rw [h]; exact List.mem_cons_self e t, by rw [h]; exact hc⟩
      · exact Or.inr ⟨List.mem_cons_of_mem e hmem, lt_trans hlt hc⟩
    · rw [if_neg hc]
      rcases ih acc with h | ⟨hmem, hlt⟩
      · exact Or.inl h
      · exact Or.inr ⟨List.mem_cons_of_mem e hmem, hlt⟩

/-- The scan of `removeOldest`, stated through `scanOldest`: it returns the
sentinel or an element strictly older than the clock. -/
theorem scanOldest_cases (now : Nat) (es : List (String × Nat)) :
    scanOldest now es = ("", now) ∨
    (scanOldest now es ∈ es ∧ (scanOldest now es).2 < now) := by
  have h := scan_result es ("", now)
  unfold scanOldest
  simpa using h

/-- `removeOldest` at clock `now` preserves `KeyAt _ k now`: it can only
delete an entry with a strictly older timestamp. -/
theorem keyAt_removeOldest (es : List (String × Nat)) (k : String) (now : Nat)
    (h : KeyAt es k now) : KeyAt (removeOldest now es) k now := by
  unfold removeOldest
  by_cases he : es.isEmpty = true
  · rw [if_pos he]; exact h
  · rw [if_neg he]
    by_cases hb : (scanOldest now es).1 ≠ ""
    · rw [if_pos hb]
      have hbk : (scanOldest now es).1 ≠ k := by
        rcases scanOldest_cases now es with hs | ⟨hmem, hlt⟩
        · rw [hs] at hb
          exact absurd rfl hb
        · intro hk
          have hts := h.2 (scanOldest now es) hmem hk
          omega
      constructor
      · obtain ⟨e0, he0, hk0⟩ := h.1
        refine ⟨e0, List.mem_filter.mpr ⟨he0, ?_⟩, hk0⟩
        have hne0 : e0.1 ≠ (scanOldest now es).1 := by
          rw [hk0]
          exact fun hEq => hbk hEq.symm
        simp [hne0]
      · intro e he' hk'
        exact h.2 e (List.mem_of_mem_filter he') hk'
    · rw [if_neg hb]; exact h

/-- `mapSet` with any key preserves `KeyAt _ k now` at the same clock. -/
theorem keyAt_mapSet_other (es : List (String × Nat)) (k k' : String) (now : Nat)
    (h : KeyAt es k now) : KeyAt (mapSet es k' now) k now := by
  unfold mapSet
  by_cases hc : hasKey es k' = true
  · rw [if_pos hc]
    obtain ⟨e0, he0, hk0⟩ := h.1
    constructor
    · by_cases hek : (e0.1 == k') = true
      · have hkk : k = k' := by rw [← hk0]; exact eq_of_beq hek
        exact ⟨(k', now), List.mem_map.mpr ⟨e0, he0, if_pos hek⟩, hkk.symm⟩
      · exact ⟨e0, List.mem_map.mpr ⟨e0, he0, if_neg hek⟩, hk0⟩
    · intro e' he' hk'
      obtain ⟨e, he, hfe⟩ := List.mem_map.mp he'
      by_cases hek : (e.1 == k') = true
      · rw [if_pos hek] at hfe
        rw [← hfe]
      · rw [if_neg hek] at hfe
        rw [← hfe]
        exact h.2 e he (by rw [hfe]; exact hk')
  · rw [if_neg hc]
    obtain ⟨e0, he0, hk0⟩ := h.1
    constructor
    · exact ⟨e0, List.mem_append_left _ he0, hk0⟩
    · intro e he hk
      rcases List.mem_append.mp he with hes | hone
      · exact h.2 e hes hk
      · rw [List.mem_singleton.mp hone]

/-- `add` establishes `KeyAt` for the added key. -/
theorem keyAt_add (c : Cache) (k : String) (now : Nat) :
    KeyAt (add c k now).entries k now := by
  unfold add
  exact keyAt_mapSet _ k now

/-- `add` of any key at the same clock preserves `KeyAt _ k now`. -/
theorem keyAt_add_other (c : Cache) (k k' : String) (now : Nat)
    (h : KeyAt c.entries k now) : KeyAt (add c k' now).entries k now := by
  unfold add
  by_cases hg : c.maxSize ≤ c.entries.length
  · rw [if_pos hg]
    exact keyAt_mapSet_other _ k k' now (keyAt_removeOldest _ k now h)
  · rw [if_neg hg]
    exact keyAt_mapSet_other _ k k' now h

/-- `addBatch` at one clock preserves `KeyAt _ k now`. -/
theorem keyAt_addBatch_pres (ks : List String) (c : Cache) (k : String) (now : Nat)
    (h : KeyAt c.entries k now) : KeyAt (addBatch c ks now).entries k now := by
  induction ks generalizing c with
  | nil => exact h
  | cons a t ih => exact ih (add c a now) (keyAt_add_other c k a now h)

/-- Every key of a batch is present (with the batch clock) after `addBatch`. -/
theorem keyAt_addBatch (ks : List String) (c : Cache) (k : String) (now : Nat)
    (hk : k ∈ ks) : KeyAt (addBatch c ks now).entries k now := by
  induction ks generalizing c with
  | nil => cases hk
  | cons a t ih =>
    rcases List.mem_cons.mp hk with rfl | hmem
    · exact keyAt_addBatch_pres t (add c k now) k now (keyAt_add c k now)
    · exact ih (add c a now) hmem

/-- A key with `KeyAt` is reported present by `has`. -/
theorem has_of_keyAt (c : Cache) (k : String) (now : Nat)
    (h : KeyAt c.entries k now) : has c k = true := by
  obtain ⟨e0, he0, hk0⟩ := h.1
  unfold has hasKey
  rw [List.any_eq_true]
  exact ⟨e0, he0, by simp [hk0]⟩

end MemoryCache

namespace DeduplicationFilter

/-- After a batch mark on a tier, a check served by the same tier reports the
marked key as not new. -/
theorem markBatch_not_new (st : DedupState) (up : Bool) (ids : List String)
    (n : Notice) (now : Nat) (hid : n.id ∈ ids) :
    isNewNotice (markBatchAsSent st up ids now) up n = false := by
  cases up with
  | true =>
    show (!redisHasSent (redisMarkBatch st ids) n.id) = false
    unfold redisHasSent redisMarkBatch
    simp [hid]
  | false =>
    show (!MemoryCache.has (MemoryCache.addBatch st.mem ids now) n.id) = false
    rw [MemoryCache.has_of_keyAt _ _ now (MemoryCache.keyAt_addBatch ids st.mem n.id now hid)]
    rfl

end DeduplicationFilter

/-- C2 counterexample. The claim: once a key is marked sent on either tier,
a later `isNewNotice` for it returns false even when a tier-health flip makes
the other tier serve the check. Refuted: marking `idA` while the Redis tier
serves the call writes only Redis; a later check served by the memory tier
(Redis flipped unhealthy) finds nothing there and classifies the record as
new again. -/
theorem C2_tier_flip_counterexample :
    DeduplicationFilter.isNewNotice
      (DeduplicationFilter.markAsSent ⟨[], ⟨5000, []⟩⟩ true nA.id 100) false nA = true := by
  rfl

/-- C2 (amended): the invariant holds per tier. Whenever a mark — single or
batched — is served by a tier, a later check served by the same tier (within
the Redis TTL window, with no intervening memory-tier clock advance) reports
the key as not new. Under a tier flip between mark and check the key can be
classified new again, because neither tier writes through to the other. -/
theorem C2_same_tier_invariant (st : DeduplicationFilter.DedupState) (up : Bool)
    (n : Notice) (now : Nat) (ids : List String) (hid : n.id ∈ ids) :
    DeduplicationFilter.isNewNotice
      (DeduplicationFilter.markAsSent st up n.id now) up n = false ∧
    DeduplicationFilter.isNewNotice
      (DeduplicationFilter.markBatchAsSent st up ids now) up n = false := by
  constructor
  · cases up with
    | true =>
      show (!DeduplicationFilter.redisHasSent
        (DeduplicationFilter.redisMarkBatch st [n.id]) n.id) = false
      unfold DeduplicationFilter.redisHasSent DeduplicationFilter.redisMarkBatch
      simp
    | false =>
      show (!MemoryCache.has (MemoryCache.add st.mem n.id now) n.id) = false
      rw [MemoryCache.has_of_keyAt _ _ now (MemoryCache.keyAt_add st.mem n.id now)]
      rfl
  · exact DeduplicationFilter.markBatch_not_new st up ids n now hid

/-- C2 witness: a concrete same-tier mark-then-check on both the single and
the batched mark paths. -/
theorem C2_same_tier_invariant_witness :
    DeduplicationFilter.isNewNotice
      (DeduplicationFilter.markAsSent ⟨[], ⟨5000, []⟩⟩ false nA.id 100) false nA = false ∧
    DeduplicationFilter.isNewNotice
      (DeduplicationFilter.markBatchAsSent ⟨[], ⟨5000, []⟩⟩ false ["idA"] 100) false nA = false :=
  C2_same_tier_invariant ⟨[], ⟨5000, []⟩⟩ false nA 100 ["idA"] (by decide)

/-- C1 counterexample. The claim: a record whose payload failed to deliver is
not marked sent and is still classified new on the next run. Refuted: in
`CrawlerService.run` the call to `markNoticesAsSent` follows the push
unconditionally, so with a push that reports failure the record is marked
anyway and the next-run check classifies it as not new. -/
theorem C1_failed_push_still_marked :
    (CrawlerService.runPushPhase (fun _ => ⟨false, "push failed"⟩)
        ⟨[], ⟨5000, []⟩⟩ false 100 [nA]).1 = some ⟨false, "push failed"⟩ ∧
    DeduplicationFilter.isNewNotice
      (CrawlerService.runPushPhase (fun _ => ⟨false, "push failed"⟩)
        ⟨[], ⟨5000, []⟩⟩ false 100 [nA]).2 false nA = false := by
  exact ⟨rfl, rfl⟩

/-- C1 (amended): whenever the dedup stage yields at least one new record,
`CrawlerService.run` marks every new record's id as sent, regardless of the
push outcome; each such record is then classified not-new by a next-run check
served by the same tier. -/
theorem C1_marks_all_new_regardless (push : List Notice → CrawlerService.PushResultL)
    (st : DeduplicationFilter.DedupState) (up : Bool) (now : Nat)
    (notices : List Notice) (n : Notice) (hn : n ∈ notices) :
    DeduplicationFilter.isNewNotice
      (CrawlerService.runPushPhase push st up now notices).2 up n = false := by
  have hpos : 0 < notices.length := List.length_pos.mpr (List.ne_nil_of_mem hn)
  unfold CrawlerService.runPushPhase
  rw [if_pos hpos]
  exact DeduplicationFilter.markBatch_not_new st up _ n now
    (List.mem_map_of_mem (fun x => x.id) hn)

/-- C1 witness: a concrete run phase with a failing push; the lone new record
is marked and no longer new. -/
theorem C1_marks_all_new_regardless_witness :
    DeduplicationFilter.isNewNotice
      (CrawlerService.runPushPhase (fun _ => ⟨false, "push failed"⟩)
        ⟨[], ⟨5000, []⟩⟩ false 100 [nA]).2 false nA = false :=
  C1_marks_all_new_regardless (fun _ => ⟨false, "push failed"⟩)
    ⟨[], ⟨5000, []⟩⟩ false 100 [nA] nA (by simp)

/-- C3: the claim matches the intent documented in the source (the `catch`
branch and its log message say an unparsable date keeps the record), but the
code drops such records: `new Date` never throws on a string, the `Invalid
Date` comparison is false, and the `catch` is dead. This theorem evaluates
the temporal filter at the failing input: `dayRange = 7`, one record with an
uninterpretable `publishDate`; the record is removed, not kept. -/
theorem C3_unparsable_date_dropped :
    DataFilter.filterByDate ⟨7, [], []⟩ (epochMs 2024 1 15)
      [⟨"idC", "Some notice", "https://example.com/c", "not-a-date", none, none, none⟩] = [] := by
  rfl

/-- C6: three attempts are made against an always-failing webhook channel
before the failure is recorded, and the two backoff delays slept between
them are the base delay times successive powers of two — hence
non-decreasing. With `MAX_RETRIES = 3` the code's `RETRY_DELAY * attempt`
schedule coincides with this geometric schedule. -/
theorem C6_webhook_retry_bound (outcome : Nat → Bool) (h : ∀ a, outcome a = false) :
    FeishuBot.webhookRun outcome =
      (FeishuBot.MAX_RETRIES,
        [FeishuBot.RETRY_DELAY * 2 ^ 0, FeishuBot.RETRY_DELAY * 2 ^ 1], false) ∧
    List.Chain' (· ≤ ·) (FeishuBot.webhookRun outcome).2.1 := by
  have e : FeishuBot.webhookRun outcome = (3, [1000, 2000], false) := by
    simp [FeishuBot.webhookRun, FeishuBot.webhookGo, FeishuBot.MAX_RETRIES,
      FeishuBot.RETRY_DELAY, h]
  constructor
  · rw [e]; rfl
  · rw [e]
    simp [List.chain'_cons]

/-- C6 witness: the always-failing channel. -/
theorem C6_webhook_retry_bound_witness :
    FeishuBot.webhookRun (fun _ => false) =
      (FeishuBot.MAX_RETRIES,
        [FeishuBot.RETRY_DELAY * 2 ^ 0, FeishuBot.RETRY_DELAY * 2 ^ 1], false) ∧
    List.Chain' (· ≤ ·) (FeishuBot.webhookRun (fun _ => false)).2.1 :=
  C6_webhook_retry_bound (fun _ => false) (fun _ => rfl)

/-- C4 counterexample. The claim: the cross-run check queries by Dedup Key,
so a record with a new id but a key equal to an already-sent record's key is
classified not-new. Refuted: `nA` and `nB` share one Dedup Key but differ in
id; after `nA`'s id is marked sent (on either tier), both cross-run filters
still classify `nB` as new, because they query by raw id. -/
theorem C4_cross_run_queries_raw_id :
    DeduplicationFilter.generateDedupeKey nA = DeduplicationFilter.generateDedupeKey nB ∧
    nA.id ≠ nB.id ∧
    DeduplicationFilter.filterNewNotices (MemoryCache.add ⟨5000, []⟩ nA.id 100) [nB] = [nB] ∧
    DeduplicationFilter.filterNewNoticesWithRedis ⟨[nA.id], ⟨5000, []⟩⟩ [nB] = [nB] := by
  exact ⟨rfl, by decide, rfl, rfl⟩

/-- C4 (amended): both cross-run filters classify a record by its raw `id`
alone — a record is kept as new exactly when its id is absent from the tier
queried; the Dedup Key is used only for intra-batch deduplication. -/
theorem C4_new_iff_id_unseen (mem : MemoryCache.Cache)
    (st : DeduplicationFilter.DedupState) (notices : List Notice)
    (n : Notice) (hn : n ∈ notices) :
    (n ∈ DeduplicationFilter.filterNewNotices mem notices ↔
      MemoryCache.has mem n.id = false) ∧
    (n ∈ DeduplicationFilter.filterNewNoticesWithRedis st notices ↔
      DeduplicationFilter.redisHasSent st n.id = false) := by
  constructor
  · simp [DeduplicationFilter.filterNewNotices, List.mem_filter, hn]
  · simp [DeduplicationFilter.filterNewNoticesWithRedis, List.mem_filter, hn]

/-- C4 witness: a fresh record in a singleton batch against an empty memory
tier and an empty Redis tier. -/
theorem C4_new_iff_id_unseen_witness :
    (nA ∈ DeduplicationFilter.filterNewNotices ⟨5000, []⟩ [nA] ↔
      MemoryCache.has ⟨5000, []⟩ nA.id = false) ∧
    (nA ∈ DeduplicationFilter.filterNewNoticesWithRedis ⟨[], ⟨5000, []⟩⟩ [nA] ↔
      DeduplicationFilter.redisHasSent ⟨[], ⟨5000, []⟩⟩ nA.id = false) :=
  C4_new_iff_id_unseen ⟨5000, []⟩ ⟨[], ⟨5000, []⟩⟩ [nA] nA (by simp)

namespace DeduplicationFilter

/-- Unfolding of `keepFirstByKey` on a non-empty list. -/
theorem keepFirstByKey_cons (n : Notice) (t : List Notice) :
    keepFirstByKey (n :: t) =
      n :: keepFirstByKey
        (t.filter (fun m => !(generateDedupeKey m == generateDedupeKey n))) := by
  rw [keepFirstByKey]

/-- The batch-dedup loop with an explicit `seen` set computes `keepFirstByKey`
of the input with the already-seen keys filtered away. -/
theorem dedupGo_eq_keepFirst (l : List Notice) : ∀ seen : List String,
    dedupGo seen l =
      keepFirstByKey (l.filter (fun n => !(seen.contains (generateDedupeKey n)))) := by
  induction l with
  | nil =>
    intro seen
    show ([] : List Notice) = keepFirstByKey (List.filter _ [])
    simp [keepFirstByKey]
  | cons n t ih =>
    intro seen
    have hstep : dedupGo seen (n :: t) =
        if seen.contains (generateDedupeKey n) = true then dedupGo seen t
        else n :: dedupGo (generateDedupeKey n :: seen) t := rfl
    by_cases hc : seen.contains (generateDedupeKey n) = true
    · rw [hstep, if_pos hc, List.filter_cons]
      simp only [hc, Bool.not_true, Bool.false_eq_true, if_false]
      exact ih seen
    · have hcf : seen.contains (generateDedupeKey n) = false := by
        cases h2 : seen.contains (generateDedupeKey n)
        · rfl
        · exact absurd h2 hc
      rw [hstep, if_neg hc, List.filter_cons]
      simp only [hcf, Bool.not_false, if_true]
      rw [keepFirstByKey_cons]
      rw [ih (generateDedupeKey n :: seen), List.filter_filter]
      have hpred : ∀ m ∈ t,
          (!(generateDedupeKey n :: seen).contains (generateDedupeKey m)) =
          (!(generateDedupeKey m == generateDedupeKey n) &&
            !(seen.contains (generateDedupeKey m))) := by
        intro m _
        simp only [List.contains_cons, Bool.not_or]
      rw [List.filter_congr hpred]

/-- `keepFirstByKey` returns a sublist (length-bounded strong induction). -/
theorem keepFirst_sublist_aux (N : Nat) : ∀ (l : List Notice), l.length ≤ N →
    (keepFirstByKey l).Sublist l := by
  induction N with
  | zero =>
    intro l hl
    have hnil : l = [] := List.length_eq_zero.mp (Nat.le_zero.mp hl)
    rw [hnil]
    simp [keepFirstByKey]
  | succ N ih =>
    intro l hl
    cases l with
    | nil => simp [keepFirstByKey]
    | cons n t =>
      rw [keepFirstByKey_cons]
      apply List.Sublist.cons₂
      have h1 : (t.filter (fun m => !(generateDedupeKey m == generateDedupeKey n))).length ≤ N :=
        le_trans (List.length_filter_le _ t) (by simpa using hl)
      exact (ih _ h1).trans (List.filter_sublist t)

/-- `keepFirstByKey` preserves input order. -/
theorem keepFirst_sublist (l : List Notice) : (keepFirstByKey l).Sublist l :=
  keepFirst_sublist_aux l.length l le_rfl

end DeduplicationFilter

/-- C8: intra-batch deduplication keeps, per Dedup Key, exactly the first
record of the input in input order: `removeDuplicatesWithinBatch` equals the
keep-first reference function, and its output is a sublist of the input, so
the relative order of the survivors is the input order. -/
theorem C8_intra_batch_keep_first (notices : List Notice) :
    DeduplicationFilter.removeDuplicatesWithinBatch notices =
      DeduplicationFilter.keepFirstByKey notices ∧
    (DeduplicationFilter.removeDuplicatesWithinBatch notices).Sublist notices := by
  have h : DeduplicationFilter.removeDuplicatesWithinBatch notices =
      DeduplicationFilter.keepFirstByKey notices := by
    unfold DeduplicationFilter.removeDuplicatesWithinBatch
    rw [DeduplicationFilter.dedupGo_eq_keepFirst]
    congr 1
    simp
  exact ⟨h, h ▸ DeduplicationFilter.keepFirst_sublist notices⟩

namespace DataFilter

/-- The per-record predicate that `filterByDate` is extensionally equal to
(the `dayRange ≤ 0` early return behaves as an always-true predicate). -/
def datePred (cfg : FilterConfig) (nowMs : Int) (n : Notice) : Bool :=
  decide (cfg.dayRange ≤ 0) ||
    (match jsParseDate n.publishDate with
     | some t => decide (nowMs - cfg.dayRange * 86400000 ≤ t)
     | none => false)

/-- The per-record predicate that `filterByKeywords` is extensionally equal
to. -/
def keywordPred (cfg : FilterConfig) (n : Notice) : Bool :=
  cfg.keywords.isEmpty ||
    cfg.keywords.any (fun k => strIncludes (searchText n) (jsLower k))

/-- The per-record predicate that `filterByExcludeKeywords` is extensionally
equal to. -/
def excludePred (cfg : FilterConfig) (n : Notice) : Bool :=
  cfg.excludeKeywords.isEmpty ||
    !cfg.excludeKeywords.any (fun k => strIncludes (searchText n) (jsLower k))

/-- `filterByDate` is a `List.filter`. -/
theorem filterByDate_eq_filter (cfg : FilterConfig) (nowMs : Int) (l : List Notice) :
    filterByDate cfg nowMs l = l.filter (datePred cfg nowMs) := by
  unfold filterByDate
  by_cases h : cfg.dayRange ≤ 0
  · rw [if_pos h]
    symm
    apply List.filter_eq_self.mpr
    intro n _
    simp [datePred, h]
  · rw [if_neg h]
    apply List.filter_congr
    intro n _
    simp [datePred, h]

/-- `filterByKeywords` is a `List.filter`. -/
theorem filterByKeywords_eq_filter (cfg : FilterConfig) (l : List Notice) :
    filterByKeywords cfg l = l.filter (keywordPred cfg) := by
  unfold filterByKeywords
  by_cases h : cfg.keywords.isEmpty = true
  · rw [if_pos h]
    symm
    apply List.filter_eq_self.mpr
    intro n _
    simp [keywordPred, h]
  · rw [if_neg h]
    apply List.filter_congr
    intro n _
    have hf : cfg.keywords.isEmpty = false := by
      cases h2 : cfg.keywords.isEmpty
      · rfl
      · exact absurd h2 h
    simp [keywordPred, hf]

/-- `filterByExcludeKeywords` is a `List.filter`. -/
theorem filterByExcludeKeywords_eq_filter (cfg : FilterConfig) (l : List Notice) :
    filterByExcludeKeywords cfg l = l.filter (excludePred cfg) := by
  unfold filterByExcludeKeywords
  by_cases h : cfg.excludeKeywords.isEmpty = true
  · rw [if_pos h]
    symm
    apply List.filter_eq_self.mpr
    intro n _
    simp [excludePred, h]
  · rw [if_neg h]
    apply List.filter_congr
    intro n _
    have hf : cfg.excludeKeywords.isEmpty = false := by
      cases h2 : cfg.excludeKeywords.isEmpty
      · rfl
      · exact absurd h2 h
    simp [excludePred, hf]

end DataFilter

/-- C9: the three per-record filter stages of `DataFilter.filter` commute —
at a fixed configuration and evaluation instant, all six application orders
of the temporal, include-keyword and exclude-keyword stages produce the same
surviving list. -/
theorem C9_filter_stages_commute (cfg : FilterConfig) (nowMs : Int) (l : List Notice) :
    (DataFilter.filterByDate cfg nowMs
        (DataFilter.filterByKeywords cfg (DataFilter.filterByExcludeKeywords cfg l)) =
      DataFilter.filterByDate cfg nowMs
        (DataFilter.filterByExcludeKeywords cfg (DataFilter.filterByKeywords cfg l))) ∧
    (DataFilter.filterByDate cfg nowMs
        (DataFilter.filterByKeywords cfg (DataFilter.filterByExcludeKeywords cfg l)) =
      DataFilter.filterByKeywords cfg
        (DataFilter.filterByDate cfg nowMs (DataFilter.filterByExcludeKeywords cfg l))) ∧
    (DataFilter.filterByDate cfg nowMs
        (DataFilter.filterByKeywords cfg (DataFilter.filterByExcludeKeywords cfg l)) =
      DataFilter.filterByKeywords cfg
        (DataFilter.filterByExcludeKeywords cfg (DataFilter.filterByDate cfg nowMs l))) ∧
    (DataFilter.filterByDate cfg nowMs
        (DataFilter.filterByKeywords cfg (DataFilter.filterByExcludeKeywords cfg l)) =
      DataFilter.filterByExcludeKeywords cfg
        (DataFilter.filterByDate cfg nowMs (DataFilter.filterByKeywords cfg l))) ∧
    (DataFilter.filterByDate cfg nowMs
        (DataFilter.filterByKeywords cfg (DataFilter.filterByExcludeKeywords cfg l)) =
      DataFilter.filterByExcludeKeywords cfg
        (DataFilter.filterByKeywords cfg (DataFilter.filterByDate cfg nowMs l))) := by
  refine ⟨?_, ?_, ?_, ?_, ?_⟩ <;>
  · simp only [DataFilter.filterByDate_eq_filter, DataFilter.filterByKeywords_eq_filter,
      DataFilter.filterByExcludeKeywords_eq_filter, List.filter_filter]
    exact List.filter_congr (fun a _ => by
      cases hd : DataFilter.datePred cfg nowMs a <;>
        cases hk : DataFilter.keywordPred cfg a <;>
          cases he : DataFilter.excludePred cfg a <;> simp [hd, hk, he])

namespace CategoryService

/-- `getNoticeCategory` returns the name of the first rule, in list order,
whose keyword set is empty or matches the notice, and the fallback `其他`
when none does. -/
theorem getNoticeCategory_eq_find (n : Notice) : ∀ rs : List CategoryRule,
    getNoticeCategory n rs =
      ((rs.find? (fun r => r.keywords.isEmpty || ruleMatches n r)).map
        (fun r => r.name)).getD "其他" := by
  intro rs
  induction rs with
  | nil => rfl
  | cons r t ih =>
    have hstep : getNoticeCategory n (r :: t) =
        if r.keywords.isEmpty = true then r.name
        else if ruleMatches n r = true then r.name
        else getNoticeCategory n t := rfl
    by_cases he : r.keywords.isEmpty = true
    · rw [hstep, if_pos he,
        List.find?_cons_of_pos t (show (r.keywords.isEmpty || ruleMatches n r) = true by simp [he])]
      rfl
    · by_cases hm : ruleMatches n r = true
      · rw [hstep, if_neg he, if_pos hm,
          List.find?_cons_of_pos t (show (r.keywords.isEmpty || ruleMatches n r) = true by simp [hm])]
        rfl
      · have he' : r.keywords.isEmpty = false := by
          cases h2 : r.keywords.isEmpty
          · rfl
          · exact absurd h2 he
        have hm' : ruleMatches n r = false := by
          cases h2 : ruleMatches n r
          · rfl
          · exact absurd h2 hm
        rw [hstep, if_neg he, if_neg hm,
          List.find?_cons_of_neg t (by simp [he', hm'])]
        exact ih

end CategoryService

/-- C7: with the rule list sorted as `categorizeNotices` sorts it — and that
order is ascending priority — classification returns the name of the first
rule whose keyword set is empty or contains a case-insensitive substring
match against `title + " " + summary`; the classifier is a pure function (so
repeated calls agree) and always returns exactly one name; and when the rule
set contains exactly one catch-all (empty keyword set) and no non-empty rule
matches, the catch-all's name is returned. -/
theorem C7_classifier_first_match (n : Notice) (rules : List CategoryRule)
    (catchAll : CategoryRule) (hmem : catchAll ∈ rules)
    (hempty : catchAll.keywords = [])
    (huniq : ∀ r ∈ rules, r.keywords = [] → r = catchAll) :
    List.Sorted (fun a b => a.priority ≤ b.priority) (CategoryService.sortRules rules) ∧
    CategoryService.getNoticeCategory n (CategoryService.sortRules rules) =
      (((CategoryService.sortRules rules).find?
        (fun r => r.keywords.isEmpty || CategoryService.ruleMatches n r)).map
        (fun r => r.name)).getD "其他" ∧
    ((∀ r ∈ rules, r.keywords ≠ [] → CategoryService.ruleMatches n r = false) →
      CategoryService.getNoticeCategory n (CategoryService.sortRules rules) = catchAll.name) := by
  refine ⟨List.sorted_insertionSort CategoryService.rulePriorityLE rules,
    CategoryService.getNoticeCategory_eq_find n _, ?_⟩
  intro hno
  have hperm : List.Perm (CategoryService.sortRules rules) rules :=
    List.perm_insertionSort CategoryService.rulePriorityLE rules
  have hmemS : catchAll ∈ CategoryService.sortRules rules := hperm.mem_iff.mpr hmem
  have hsome : ∃ r0, (CategoryService.sortRules rules).find?
      (fun r => r.keywords.isEmpty || CategoryService.ruleMatches n r) = some r0 := by
    apply Option.isSome_iff_exists.mp
    apply List.find?_isSome.mpr
    exact ⟨catchAll, hmemS, by simp [hempty]⟩
  obtain ⟨r0, hr0⟩ := hsome
  have hp0' := List.find?_some hr0
  have hp0 : (r0.keywords.isEmpty || CategoryService.ruleMatches n r0) = true := hp0'
  have hmem0 : r0 ∈ rules := hperm.subset (List.mem_of_find?_eq_some hr0)
  have hkeys0 : r0.keywords = [] := by
    by_cases hke : r0.keywords = []
    · exact hke
    · rw [hno r0 hmem0 hke] at hp0
      simp only [Bool.or_false] at hp0
      exact absurd (by simpa using hp0) hke
  have hr0c : r0 = catchAll := huniq r0 hmem0 hkeys0
  rw [CategoryService.getNoticeCategory_eq_find n, hr0, hr0c]
  rfl

/-- Sample rules for the classifier witness: one keyword rule and one
catch-all. -/
def ruleEstate : CategoryRule := ⟨"housing", ["estate"], 1⟩

/-- The catch-all sample rule. -/
def ruleMisc : CategoryRule := ⟨"misc", [], 999⟩

/-- C7 witness: the two-rule set applied to a record matching no keyword —
the classifier is the first-match function and yields the catch-all. -/
theorem C7_classifier_first_match_witness :
    List.Sorted (fun a b => a.priority ≤ b.priority)
      (CategoryService.sortRules [ruleEstate, ruleMisc]) ∧
    CategoryService.getNoticeCategory nA (CategoryService.sortRules [ruleEstate, ruleMisc]) =
      (((CategoryService.sortRules [ruleEstate, ruleMisc]).find?
        (fun r => r.keywords.isEmpty || CategoryService.ruleMatches nA r)).map
        (fun r => r.name)).getD "其他" ∧
    ((∀ r ∈ [ruleEstate, ruleMisc], r.keywords ≠ [] →
        CategoryService.ruleMatches nA r = false) →
      CategoryService.getNoticeCategory nA
        (CategoryService.sortRules [ruleEstate, ruleMisc]) = ruleMisc.name) :=
  C7_classifier_first_match nA [ruleEstate, ruleMisc] ruleMisc
    (by decide) rfl (by decide)

namespace CategoryService

/-- Appending a notice to its bucket adds exactly that notice to the joined
bucket contents, up to permutation (the bucket may sit in the middle). -/
theorem addToBucket_join (acc : List (String × List (Notice × Nat))) (c : String)
    (x : Notice × Nat) :
    List.Perm (((addToBucket acc c x).map Prod.snd).join)
      (((acc.map Prod.snd).join) ++ [x]) := by
  induction acc with
  | nil => simp [addToBucket]
  | cons b t ih =>
    obtain ⟨k, xs⟩ := b
    by_cases h : (k == c) = true
    · rw [show addToBucket ((k, xs) :: t) c x = (k, xs ++ [x]) :: t from by
        simp [addToBucket, h]]
      simp only [List.map_cons, List.join_cons, List.append_assoc]
      exact List.Perm.append_left xs List.perm_append_comm
    · rw [show addToBucket ((k, xs) :: t) c x = (k, xs) :: addToBucket t c x from by
        simp [addToBucket, h]]
      simp only [List.map_cons, List.join_cons, List.append_assoc]
      exact List.Perm.append_left xs ih

/-- Folding bucket insertions over a list appends, up to permutation, exactly
the processed records to the joined bucket contents. -/
theorem foldl_addToBucket_join (catf : (Nat × Notice) → String)
    (procf : (Nat × Notice) → (Notice × Nat)) :
    ∀ (xs : List (Nat × Notice)) (acc : List (String × List (Notice × Nat))),
    List.Perm (((xs.foldl (fun a p => addToBucket a (catf p) (procf p)) acc).map Prod.snd).join)
      (((acc.map Prod.snd).join) ++ xs.map procf) := by
  intro xs
  induction xs with
  | nil => intro acc; simp
  | cons p t ih =>
    intro acc
    simp only [List.foldl_cons, List.map_cons]
    refine (ih (addToBucket acc (catf p) (procf p))).trans ?_
    refine (List.Perm.append_right (t.map procf) (addToBucket_join acc (catf p) (procf p))).trans ?_
    rw [List.append_assoc, List.singleton_append]

/-- Keys after a bucket insertion: unchanged when the category exists,
appended at the end otherwise. -/
theorem addToBucket_keys (acc : List (String × List (Notice × Nat))) (c : String)
    (x : Notice × Nat) :
    (addToBucket acc c x).map Prod.fst =
      if (acc.map Prod.fst).contains c then acc.map Prod.fst
      else acc.map Prod.fst ++ [c] := by
  induction acc with
  | nil => simp [addToBucket]
  | cons b t ih =>
    obtain ⟨k, xs⟩ := b
    by_cases h : (k == c) = true
    · have hck : (c == k) = true := by
        have hkc : k = c := eq_of_beq h
        simp [hkc]
      rw [show addToBucket ((k, xs) :: t) c x = (k, xs ++ [x]) :: t from by
        simp [addToBucket, h]]
      simp only [List.map_cons, List.contains_cons, hck, Bool.true_or, if_true]
    · have hck : (c == k) = false := by
        cases h2 : (c == k)
        · rfl
        · exact absurd (by simp [eq_of_beq h2]) h
      rw [show addToBucket ((k, xs) :: t) c x = (k, xs) :: addToBucket t c x from by
        simp [addToBucket, h]]
      simp only [List.map_cons, List.contains_cons, hck, Bool.false_or, ih]
      by_cases h2 : (t.map Prod.fst).contains c = true
      · rw [if_pos h2, if_pos h2]
      · have h2f : (t.map Prod.fst).contains c = false := by
          cases h3 : (t.map Prod.fst).contains c
          · rfl
          · exact absurd h3 h2
        rw [h2f]
        simp

/-- Bucket insertion preserves distinctness of the category keys. -/
theorem addToBucket_keys_nodup (acc : List (String × List (Notice × Nat))) (c : String)
    (x : Notice × Nat) (h : (acc.map Prod.fst).Nodup) :
    ((addToBucket acc c x).map Prod.fst).Nodup := by
  rw [addToBucket_keys]
  by_cases hc : (acc.map Prod.fst).contains c = true
  · rw [if_pos hc]; exact h
  · have hcf : (acc.map Prod.fst).contains c = false := by
      cases h2 : (acc.map Prod.fst).contains c
      · rfl
      · exact absurd h2 hc
    rw [hcf]
    simp only [Bool.false_eq_true, if_false]
    rw [List.nodup_append]
    refine ⟨h, List.nodup_singleton c, ?_⟩
    intro a ha ha1
    rw [List.mem_singleton.mp ha1] at ha
    exact absurd ha (by simpa using hcf)

/-- Folding bucket insertions preserves distinctness of the category keys. -/
theorem foldl_addToBucket_keys_nodup (catf : (Nat × Notice) → String)
    (procf : (Nat × Notice) → (Notice × Nat)) :
    ∀ (xs : List (Nat × Notice)) (acc : List (String × List (Notice × Nat))),
    (acc.map Prod.fst).Nodup →
    ((xs.foldl (fun a p => addToBucket a (catf p) (procf p)) acc).map Prod.fst).Nodup := by
  intro xs
  induction xs with
  | nil => intro acc h; exact h
  | cons p t ih =>
    intro acc h
    exact ih _ (addToBucket_keys_nodup acc (catf p) (procf p) h)

end CategoryService

/-- C10: classification only rewrites the `category` field and tags the
original index: the joined bucket contents of `categorizeNotices` are a
permutation of the input notices where each notice keeps its `id`, `title`,
`url`, `publishDate`, `summary` and `content` and only `category` is set
(paired with its original index), so each input notice lands in exactly one
bucket; and the bucket keys are pairwise distinct. -/
theorem C10_classification_frame (rules : List CategoryRule) (notices : List Notice) :
    List.Perm (((CategoryService.categorizeNotices rules notices).map Prod.snd).join)
      (notices.enum.map (fun p =>
        ({ p.2 with category := some (CategoryService.getNoticeCategory p.2
            (CategoryService.sortRules rules)) }, p.1))) ∧
    ((CategoryService.categorizeNotices rules notices).map Prod.fst).Nodup := by
  constructor
  · have h := CategoryService.foldl_addToBucket_join
      (fun p => CategoryService.getNoticeCategory p.2 (CategoryService.sortRules rules))
      (fun p => ({ p.2 with category := some (CategoryService.getNoticeCategory p.2
        (CategoryService.sortRules rules)) }, p.1))
      notices.enum []
    simpa using h
  · exact CategoryService.foldl_addToBucket_keys_nodup _ _ notices.enum [] List.nodup_nil
